import Mathlib

/-!
Verification of the diff-parsing core of the agentmap repository
(`cli/src/extract/git-status.ts`).

The TypeScript functions are shallowly embedded as Lean functions over
`List Char` (the code works on JavaScript strings line by line; we model a
string by its character list).  JavaScript numbers that hold line counts are
modelled as `Int` (all arithmetic involved is exact integer arithmetic).
JavaScript `Map` objects are modelled as insertion-ordered association lists
with `Map.set` overwrite semantics (`mapSet`) and `Map.get` (`mapGet`).
-/

namespace Agentmap

/-! ## JavaScript string primitives -/

/-- Whitespace as used by JavaScript `String.prototype.trim` (the characters
that can actually occur in diff text). -/
def jsWs (c : Char) : Bool :=
  c == ' ' || c == '\t' || c == '\n' || c == '\r' ||
  c.toNat == 11 || c.toNat == 12 || c.toNat == 160 || c.toNat == 0xfeff

/-- `s.split(sep)` for a one-character separator, on character lists.
Mirrors JavaScript semantics: `"".split(c) = [""]`, separators at the ends
produce empty segments. -/
def splitOnChar (sep : Char) : List Char → List (List Char)
  | [] => [[]]
  | c :: rest =>
    let r := splitOnChar sep rest
    if c = sep then [] :: r
    else
      match r with
      | h :: t => (c :: h) :: t
      | [] => [[c]]

/-- Inverse of `splitOnChar`: interleave the separator between the segments. -/
def joinChar (sep : Char) : List (List Char) → List Char
  | [] => []
  | [l] => l
  | l :: rest => l ++ sep :: joinChar sep rest

/-- Match a literal prefix; on success return the remaining characters.
This is the building block for `startsWith` and for the literal parts of the
regular expressions in the source. -/
def stripLit : List Char → List Char → Option (List Char)
  | [], l => some l
  | _ :: _, [] => none
  | c :: cs, x :: xs => if x = c then stripLit cs xs else none

/-- `line.startsWith(lit)`. -/
def startsWithL (lit l : List Char) : Bool :=
  (stripLit lit l).isSome

/-- Numeric value of a digit string (the exact value JavaScript's
`parseInt(_, 10)` computes on an all-digit string). -/
def digitsVal (ds : List Char) : Nat :=
  ds.foldl (fun n c => 10 * n + (c.toNat - 48)) 0

/-- Leading decimal run: JavaScript `parseInt(_, 10)` after sign handling.
Returns `none` when the string does not start with a digit. -/
def readDec (l : List Char) : Option Nat :=
  match l.takeWhile Char.isDigit with
  | [] => none
  | ds => some (digitsVal ds)

/-- JavaScript `parseInt(s, 10)`: skip leading whitespace, optional sign,
then a leading digit run whose value is returned; anything after the digit
run is ignored; `none` models `NaN`. -/
def jsParseInt10 (l : List Char) : Option Int :=
  match l.dropWhile jsWs with
  | '-' :: rest => (readDec rest).map (fun n : Nat => -(n : Int))
  | '+' :: rest => (readDec rest).map (fun n : Nat => (n : Int))
  | rest => (readDec rest).map (fun n : Nat => (n : Int))

/-- Replace every (leftmost, non-overlapping) occurrence of the two-character
sequence `a b` by the single character `c`; models one JavaScript
`replace(/ab/g, "c")` pass. -/
def replace2 (a b c : Char) : List Char → List Char
  | x :: y :: rest =>
    if x = a ∧ y = b then c :: replace2 a b c rest
    else x :: replace2 a b c (y :: rest)
  | l => l

/-! ## PathNormalizer (`normalizePath`) -/

/-- `normalizePath` from the source: unquote a `"`-wrapped path (unescaping
`\"` and `\\`), then turn every backslash into a forward slash. -/
def normalizePathL (path : List Char) : List Char :=
  let path :=
    if path.head? = some '"' ∧ path.getLast? = some '"' then
      replace2 '\\' '\\' '\\' (replace2 '\\' '"' '"' ((path.drop 1).dropLast))
    else path
  path.map (fun c => if c = '\\' then '/' else c)

/-! ## Data model -/

/-- `DiffHunk`: the four numbers of a hunk header.  JavaScript numbers are
modelled as `Int` so that non-negativity is a provable property rather than
a typing artefact. -/
structure DiffHunk where
  oldStart : Int
  oldCount : Int
  newStart : Int
  newCount : Int
deriving DecidableEq, Repr

/-- `FileDiffStats`: per-file added/deleted line totals. -/
structure FileDiffStats where
  added : Int
  deleted : Int
deriving DecidableEq, Repr

/-- `FileDiff`: a file's path together with its ordered hunk list. -/
structure FileDiff where
  path : String
  hunks : List DiffHunk
deriving DecidableEq, Repr

/-- Status of a changed definition. -/
inductive DiffStatus where
  | added
  | updated
deriving DecidableEq, Repr

/-- `DefinitionDiff`: classification attached to a definition. -/
structure DefinitionDiff where
  status : DiffStatus
  added : Int
  deleted : Int
deriving DecidableEq, Repr

/-- A source definition record.  Modelled from the spec: the record shape
`{name, line, endLine, type, exported}` (plus the optional `diff`
attachment) comes from the spec's data model and external-interface
sections and from the test file's constructor; the declaring
`cli/src/types.ts` is not among the provided sources.  Only `line` and
`endLine` are read by the code under verification. -/
structure Definition where
  name : String
  line : Int
  endLine : Int
  type : String
  exported : Bool
  diff : Option DefinitionDiff := none
deriving DecidableEq, Repr

/-! ## JavaScript `Map` model -/

/-- `Map.set`: overwrite the first binding of the key, else append. -/
def mapSet {β : Type} : List (String × β) → String → β → List (String × β)
  | [], k, v => [(k, v)]
  | (k', v') :: rest, k, v =>
    if k' = k then (k, v) :: rest else (k', v') :: mapSet rest k v

/-- `Map.get`: first binding of the key. -/
def mapGet {β : Type} : List (String × β) → String → Option β
  | [], _ => none
  | (k', v') :: rest, k => if k' = k then some v' else mapGet rest k

/-! ## NumstatParser (`parseNumstat`) -/

/-- Join tab-separated path fragments back together (`pathParts.join("\t")`). -/
def joinTab (parts : List (List Char)) : List Char :=
  joinChar '\t' parts

/-- One iteration of the `parseNumstat` loop: the contribution of a single
line, or `none` when the line is skipped. -/
def numstatRow (line : List Char) : Option (String × FileDiffStats) :=
  if line.all jsWs then none
  else
    match splitOnChar '\t' line with
    | a :: d :: p :: ps =>
      let path := String.mk (normalizePathL (joinTab (p :: ps)))
      if a = ['-'] ∨ d = ['-'] then none
      else
        match jsParseInt10 a, jsParseInt10 d with
        | some added, some deleted =>
          if added = 0 ∧ deleted = 0 then none
          else some (path, ⟨added, deleted⟩)
        | _, _ => none
    | _ => none

/-- `parseNumstat`: fold the per-line contributions into a map with
overwrite semantics. -/
def parseNumstat (s : String) : List (String × FileDiffStats) :=
  if s.data.all jsWs then []
  else
    (splitOnChar '\n' s.data).foldl
      (fun m line =>
        match numstatRow line with
        | some (p, v) => mapSet m p v
        | none => m)
      []

/-! ## HunkHeaderParser (`parseHunkHeader`)

The source matches the line against the (unanchored) pattern
`@@ -(\d+)(?:,(\d+))? \+(\d+)(?:,(\d+))? @@`.  `matchHunkAt` matches the
pattern at the start of a character list (including the greedy digit runs
and the optional `,count` groups, whose commitment is forced: a digit run is
always maximal because the next pattern element is a non-digit, and the
optional group applies exactly when a comma followed by a digit is present);
`scanHunk` tries every start position left to right, which is exactly what
an unanchored JavaScript regex match does. -/

/-- Digit run with its value and the rest of the input (regex `(\d+)`). -/
def readNum (l : List Char) : Option (Nat × List Char) :=
  match l.takeWhile Char.isDigit with
  | [] => none
  | ds => some (digitsVal ds, l.dropWhile Char.isDigit)

/-- Regex `(\d+)(?:,(\d+))?` with the omitted count defaulting to 1. -/
def readNumPair (l : List Char) : Option (Nat × Nat × List Char) :=
  match readNum l with
  | none => none
  | some (a, r) =>
    match r with
    | ',' :: r2 =>
      match readNum r2 with
      | some (b, r3) => some (a, b, r3)
      | none => some (a, 1, r)
    | _ => some (a, 1, r)

/-- Match the full hunk-header pattern at the start of the list. -/
def matchHunkAt (l : List Char) : Option DiffHunk :=
  match stripLit "@@ -".data l with
  | none => none
  | some l1 =>
    match readNumPair l1 with
    | none => none
    | some (os, oc, l2) =>
      match stripLit " +".data l2 with
      | none => none
      | some l3 =>
        match readNumPair l3 with
        | none => none
        | some (ns, nc, l4) =>
          match stripLit " @@".data l4 with
          | none => none
          | some _ =>
            some { oldStart := (os : Int), oldCount := (oc : Int),
                   newStart := (ns : Int), newCount := (nc : Int) }

/-- Try the pattern at every position, leftmost match first. -/
def scanHunk : List Char → Option DiffHunk
  | [] => none
  | c :: rest =>
    match matchHunkAt (c :: rest) with
    | some h => some h
    | none => scanHunk rest

/-- `parseHunkHeader` from the source. -/
def parseHunkHeader (line : String) : Option DiffHunk :=
  scanHunk line.data

/-! ## UnifiedDiffParser (`parseDiff`) -/

/-- Last occurrence of `" b/"` (at position ≥ 0) followed by at least one
character; returns what follows it.  This is what the greedy `.+` in the
file-header regex `diff --git a\/.+ b\/(.+)` leaves for the capture group. -/
def lastBAux : List Char → Option (List Char)
  | [] => none
  | c :: tail =>
    match lastBAux tail with
    | some y => some y
    | none =>
      match c, tail with
      | ' ', 'b' :: '/' :: y :: ys => some (y :: ys)
      | _, _ => none

/-- Match the file-header regex at the start of the list: the literal
`diff --git a/`, at least one character, `" b/"`, and a non-empty capture.
The greedy `.+` makes the capture start after the last eligible `" b/"`. -/
def extractGitAt (l : List Char) : Option (List Char) :=
  match stripLit "diff --git a/".data l with
  | none => none
  | some [] => none
  | some (_ :: rtail) => lastBAux rtail

/-- Leftmost match of the file-header regex (JavaScript `line.match(...)`). -/
def scanDiffGit : List Char → Option (List Char)
  | [] => none
  | c :: tail =>
    match extractGitAt (c :: tail) with
    | some y => some y
    | none => scanDiffGit tail

/-- JavaScript truthiness of `currentFile : string | null` (the empty string
is falsy). -/
def jsTruthy : Option String → Bool
  | none => false
  | some s => s != ""

/-- The scanner state of `parseDiff`: the result map built so far, the
current file (if any), and the hunks accumulated for it. -/
structure DiffScanState where
  files : List (String × FileDiff)
  currentFile : Option String
  hunks : List DiffHunk
deriving DecidableEq, Repr

/-- Commit the current section into the result map
(`if (currentFile && hunks.length > 0) files.set(...)`). -/
def flushFile (files : List (String × FileDiff)) (cf : Option String)
    (hunks : List DiffHunk) : List (String × FileDiff) :=
  match cf with
  | some f => if f != "" && !hunks.isEmpty then mapSet files f ⟨f, hunks⟩ else files
  | none => files

/-- One line of the `parseDiff` scan. -/
def diffLineStep (st : DiffScanState) (line : List Char) : DiffScanState :=
  if startsWithL "diff --git ".data line then
    { files := flushFile st.files st.currentFile st.hunks
      currentFile := (scanDiffGit line).map (fun cap => String.mk (normalizePathL cap))
      hunks := [] }
  else if startsWithL "Binary files ".data line then
    { files := st.files, currentFile := none, hunks := [] }
  else if startsWithL "@@".data line && jsTruthy st.currentFile then
    match scanHunk line with
    | some h => { st with hunks := st.hunks ++ [h] }
    | none => st
  else st

/-- `parseDiff` from the source. -/
def parseDiff (s : String) : List (String × FileDiff) :=
  if s.data.all jsWs then []
  else
    let st := (splitOnChar '\n' s.data).foldl diffLineStep ⟨[], none, []⟩
    flushFile st.files st.currentFile st.hunks

/-- The hunks a section body contributes: the lines starting with `@@` that
parse, in source order. -/
def hunksOf (body : List (List Char)) : List DiffHunk :=
  body.filterMap (fun l => if startsWithL "@@".data l then scanHunk l else none)

/-- A section body is plain when it contains neither a file-header line nor
a binary marker line. -/
def bodyOk (body : List (List Char)) : Bool :=
  body.all (fun l => !startsWithL "diff --git ".data l && !startsWithL "Binary files ".data l)

/-! ## DefinitionDiffClassifier (`calculateDefinitionDiff`) -/

/-- One iteration of the classifier loop: update the running
`(addedInDef, deletedInDef)` pair with one hunk. -/
def defDiffStep (defStart defEnd : Int) (acc : Int × Int) (h : DiffHunk) :
    Int × Int :=
  let hunkNewEnd := h.newStart + h.newCount - 1
  let overlapStart := max defStart h.newStart
  let overlapEnd := min defEnd hunkNewEnd
  let acc1 :=
    if overlapStart ≤ overlapEnd then
      (acc.1 + (overlapEnd - overlapStart + 1), acc.2)
    else acc
  if 0 < h.oldCount ∧ h.newStart ≤ defEnd ∧ defStart ≤ hunkNewEnd then
    (acc1.1, acc1.2 + h.oldCount)
  else acc1

/-- The accumulated `(addedInDef, deletedInDef)` totals of the classifier. -/
def defDiffTotals (d : Definition) (hunks : List DiffHunk) : Int × Int :=
  hunks.foldl (defDiffStep d.line d.endLine) (0, 0)

/-- `calculateDefinitionDiff` from the source. -/
def calculateDefinitionDiff (d : Definition) (hunks : List DiffHunk) :
    Option DefinitionDiff :=
  let defLineCount := d.endLine - d.line + 1
  let t := defDiffTotals d hunks
  if t.1 = 0 ∧ t.2 = 0 then none
  else
    some { status := if defLineCount ≤ t.1 ∧ t.2 = 0 then .added else .updated
           added := t.1
           deleted := t.2 }

/-- `applyDiffToDefinitions` from the source. -/
def applyDiffToDefinitions (definitions : List Definition)
    (fileDiff : Option FileDiff) : List Definition :=
  match fileDiff with
  | none => definitions
  | some fd =>
    if fd.hunks.isEmpty then definitions
    else
      definitions.map (fun d =>
        match calculateDefinitionDiff d fd.hunks with
        | some diff => { d with diff := some diff }
        | none => d)

/-! ## Derived and specification-side definitions -/

/-- The valid numstat rows of an input, in source order: the per-line
contributions that the `parseNumstat` loop actually inserts. -/
def numstatRows (s : String) : List (String × FileDiffStats) :=
  if s.data.all jsWs then [] else (splitOnChar '\n' s.data).filterMap numstatRow

/-- A numstat line whose two count fields are each either the binary marker
`-` or an all-digit string (as genuine git numstat output produces). -/
def dashOrDigitFields (line : List Char) : Bool :=
  match splitOnChar '\t' line with
  | a :: d :: _ :: _ =>
    (a == ['-'] || a.all Char.isDigit) && (d == ['-'] || d.all Char.isDigit)
  | _ => true

/-- A hunk is made of four non-negative numbers. -/
def hunkNonneg (h : DiffHunk) : Prop :=
  0 ≤ h.oldStart ∧ 0 ≤ h.oldCount ∧ 0 ≤ h.newStart ∧ 0 ≤ h.newCount

/-- A non-empty all-digit character list. -/
def isDigits (l : List Char) : Prop :=
  l ≠ [] ∧ ∀ c ∈ l, c.isDigit = true

/-- The optional `,count` part of a hunk-header range, written from the
spec's grammar: either absent (count defaults to 1) or a comma followed by
digits. -/
def optCountPart (part : List Char) (count : Nat) : Prop :=
  (part = [] ∧ count = 1) ∨
  (∃ ds, isDigits ds ∧ part = ',' :: ds ∧ count = digitsVal ds)

/-- The spec's hunk-header grammar, anchored at the start of the character
list: `@@ -<oldStart>[,<oldCount>] +<newStart>[,<newCount>] @@<anything>`,
with the parsed values recorded in the hunk. -/
def hunkGrammarAt (l : List Char) (h : DiffHunk) : Prop :=
  ∃ d1 c1 d2 c2 rest oc nc,
    isDigits d1 ∧ optCountPart c1 oc ∧ isDigits d2 ∧ optCountPart c2 nc ∧
    l = "@@ -".data ++ d1 ++ c1 ++ " +".data ++ d2 ++ c2 ++ " @@".data ++ rest ∧
    h = ⟨(digitsVal d1 : Int), (oc : Int), (digitsVal d2 : Int), (nc : Int)⟩

/-- Modelled from the spec: the *anchored* hunk-header matcher the spec
describes ("match via anchored pattern"), i.e. the pattern must match at
the very start of the line. -/
def anchoredHunkHeader (line : String) : Option DiffHunk :=
  matchHunkAt line.data

/-! ## Concrete inputs for witnesses and counterexamples -/

/-- A concrete definition spanning lines 10–15. -/
def exDef : Definition := ⟨"f", 10, 15, "function", false, none⟩

/-- A concrete pure-insertion hunk covering lines 10–15. -/
def exHunks : List DiffHunk := [⟨5, 0, 10, 6⟩]

/-- A concrete definition spanning lines 10–20. -/
def exDef2 : Definition := ⟨"g", 10, 20, "function", false, none⟩

/-- A concrete change hunk at lines 12–15. -/
def exHunks2 : List DiffHunk := [⟨12, 2, 12, 4⟩]

/-! ## Map lemmas -/

theorem mapGet_mapSet {β : Type} (m : List (String × β)) (k p : String) (v : β) :
    mapGet (mapSet m k v) p = if k = p then some v else mapGet m p := by
  induction m with
  | nil =>
    by_cases hkp : k = p <;> simp [mapSet, mapGet, hkp]
  | cons kv rest ih =>
    obtain ⟨k', v'⟩ := kv
    by_cases hk : k' = k
    · subst hk
      by_cases hkp : k' = p <;> simp [mapSet, mapGet, hkp]
    · by_cases hp : k' = p
      · subst hp
        have hkp : ¬ k = k' := fun h => hk h.symm
        simp [mapSet, mapGet, hk, hkp]
      · simp [mapSet, mapGet, hk, hp, ih]

/-! ## Classifier totals -/

theorem defDiffStep_fst (ds de : Int) (acc : Int × Int) (h : DiffHunk) :
    (defDiffStep ds de acc h).1 = acc.1 +
      (if max ds h.newStart ≤ min de (h.newStart + h.newCount - 1) then
        min de (h.newStart + h.newCount - 1) - max ds h.newStart + 1 else 0) := by
  unfold defDiffStep
  simp only []
  split_ifs <;> simp <;> ring

theorem defDiffStep_snd (ds de : Int) (acc : Int × Int) (h : DiffHunk) :
    (defDiffStep ds de acc h).2 = acc.2 +
      (if 0 < h.oldCount ∧ h.newStart ≤ de ∧ ds ≤ h.newStart + h.newCount - 1 then
        h.oldCount else 0) := by
  unfold defDiffStep
  simp only []
  split_ifs <;> simp <;> ring

theorem foldl_defDiffStep (ds de : Int) (hunks : List DiffHunk) (acc : Int × Int) :
    hunks.foldl (defDiffStep ds de) acc =
      (acc.1 + (hunks.map (fun h =>
          if max ds h.newStart ≤ min de (h.newStart + h.newCount - 1) then
            min de (h.newStart + h.newCount - 1) - max ds h.newStart + 1
          else 0)).sum,
       acc.2 + (hunks.map (fun h =>
          if 0 < h.oldCount ∧ h.newStart ≤ de ∧ ds ≤ h.newStart + h.newCount - 1 then
            h.oldCount else 0)).sum) := by
  induction hunks generalizing acc with
  | nil => simp
  | cons h t ih =>
    rw [List.foldl_cons, ih]
    refine Prod.ext ?_ ?_ <;>
      simp only [defDiffStep_fst, defDiffStep_snd, List.map_cons, List.sum_cons] <;> ring

theorem sum_filter_oldCount (p : DiffHunk → Prop) [DecidablePred p]
    (hunks : List DiffHunk) :
    (((hunks.filter (fun h => decide (p h))).map DiffHunk.oldCount)).sum =
      (hunks.map (fun h => if p h then h.oldCount else 0)).sum := by
  induction hunks with
  | nil => simp
  | cons h t ih =>
    by_cases hp : p h <;> simp [List.filter_cons, hp, ih]

/-- C1: the classifier's `addedInDef` is the sum of the sizes of the
non-empty intersections of the definition span with each hunk's new span,
and its `deletedInDef` is the sum of `oldCount` over exactly the hunks with
positive `oldCount` whose new span touches the definition span. -/
theorem c1_classifier_totals (d : Definition) (hunks : List DiffHunk)
    (hd : d.line ≤ d.endLine) :
    (defDiffTotals d hunks).1 = (hunks.map (fun h =>
        if max d.line h.newStart ≤ min d.endLine (h.newStart + h.newCount - 1) then
          min d.endLine (h.newStart + h.newCount - 1) - max d.line h.newStart + 1
        else 0)).sum
    ∧ (defDiffTotals d hunks).2 =
        (((hunks.filter (fun h => decide (0 < h.oldCount ∧ h.newStart ≤ d.endLine ∧
            d.line ≤ h.newStart + h.newCount - 1))).map DiffHunk.oldCount)).sum := by
  unfold defDiffTotals
  rw [foldl_defDiffStep, sum_filter_oldCount]
  simp

/-- C2: the classifier yields "no change" exactly when both accumulated
totals are zero, and otherwise reports the totals verbatim with status
`added` precisely when the added total covers the whole definition and the
deleted total is zero. -/
theorem c2_classifier_result (d : Definition) (hunks : List DiffHunk)
    (hd : d.line ≤ d.endLine) :
    (calculateDefinitionDiff d hunks = none ↔
      (defDiffTotals d hunks).1 = 0 ∧ (defDiffTotals d hunks).2 = 0)
    ∧ ∀ r, calculateDefinitionDiff d hunks = some r →
        r.added = (defDiffTotals d hunks).1 ∧
        r.deleted = (defDiffTotals d hunks).2 ∧
        (r.status = DiffStatus.added ↔
          d.endLine - d.line + 1 ≤ (defDiffTotals d hunks).1 ∧
            (defDiffTotals d hunks).2 = 0) ∧
        (r.status = DiffStatus.updated ↔
          ¬(d.endLine - d.line + 1 ≤ (defDiffTotals d hunks).1 ∧
            (defDiffTotals d hunks).2 = 0)) := by
  constructor
  · by_cases hz : (defDiffTotals d hunks).1 = 0 ∧ (defDiffTotals d hunks).2 = 0 <;>
      simp [calculateDefinitionDiff, hz]
  · intro r hr
    by_cases hz : (defDiffTotals d hunks).1 = 0 ∧ (defDiffTotals d hunks).2 = 0
    · simp [calculateDefinitionDiff, hz] at hr
    · simp [calculateDefinitionDiff, hz] at hr
      by_cases hs : d.endLine - d.line + 1 ≤ (defDiffTotals d hunks).1 ∧
          (defDiffTotals d hunks).2 = 0 <;>
        simp [hs] at hr <;> simp [← hr, hs]

/-! ## C9: frame property of `applyDiffToDefinitions` -/

/-- C9: `applyDiffToDefinitions` preserves the length and order of the
definition list and every field except the optional `diff` attachment; with
no diff (or an empty hunk list) it is the identity, and `diff` changes only
when the classifier produces a result. -/
theorem c9_apply_diff_frame (defs : List Definition) (fd : Option FileDiff) :
    ((fd = none ∨ ∃ f, fd = some f ∧ f.hunks = []) →
      applyDiffToDefinitions defs fd = defs)
    ∧ (applyDiffToDefinitions defs fd).length = defs.length
    ∧ ∀ (i : Nat) (hi : i < defs.length)
        (hi2 : i < (applyDiffToDefinitions defs fd).length),
        ((applyDiffToDefinitions defs fd).get ⟨i, hi2⟩).name = (defs.get ⟨i, hi⟩).name ∧
        ((applyDiffToDefinitions defs fd).get ⟨i, hi2⟩).line = (defs.get ⟨i, hi⟩).line ∧
        ((applyDiffToDefinitions defs fd).get ⟨i, hi2⟩).endLine = (defs.get ⟨i, hi⟩).endLine ∧
        ((applyDiffToDefinitions defs fd).get ⟨i, hi2⟩).type = (defs.get ⟨i, hi⟩).type ∧
        ((applyDiffToDefinitions defs fd).get ⟨i, hi2⟩).exported = (defs.get ⟨i, hi⟩).exported ∧
        (((applyDiffToDefinitions defs fd).get ⟨i, hi2⟩).diff = (defs.get ⟨i, hi⟩).diff ∨
          ∃ f r, fd = some f ∧
            calculateDefinitionDiff (defs.get ⟨i, hi⟩) f.hunks = some r ∧
            ((applyDiffToDefinitions defs fd).get ⟨i, hi2⟩).diff = some r) := by
  match fd with
  | none =>
    refine ⟨fun _ => rfl, rfl, ?_⟩
    intro i hi hi2
    simp [applyDiffToDefinitions]
  | some f =>
    by_cases he : f.hunks.isEmpty
    · have hid : applyDiffToDefinitions defs (some f) = defs := by
        simp [applyDiffToDefinitions, he]
      refine ⟨fun _ => hid, by rw [hid], ?_⟩
      intro i hi hi2
      simp [hid]
    · have hne : applyDiffToDefinitions defs (some f) =
          defs.map (fun d =>
            match calculateDefinitionDiff d f.hunks with
            | some diff => { d with diff := some diff }
            | none => d) := by
        simp [applyDiffToDefinitions, he]
      constructor
      · rintro (h | ⟨f', hf', hf'e⟩)
        · exact absurd h (by simp)
        · obtain rfl : f = f' := by injection hf'
          simp [applyDiffToDefinitions, hf'e] at he
      refine ⟨by rw [hne]; simp, ?_⟩
      intro i hi hi2
      have hget : (applyDiffToDefinitions defs (some f)).get ⟨i, hi2⟩ =
          match calculateDefinitionDiff (defs.get ⟨i, hi⟩) f.hunks with
          | some diff => { defs.get ⟨i, hi⟩ with diff := some diff }
          | none => defs.get ⟨i, hi⟩ := by
        simp only [List.get_eq_getElem, hne, List.getElem_map]
      rw [hget]
      rcases hcd : calculateDefinitionDiff (defs.get ⟨i, hi⟩) f.hunks with _ | r
      · exact ⟨rfl, rfl, rfl, rfl, rfl, Or.inl rfl⟩
      · exact ⟨rfl, rfl, rfl, rfl, rfl, Or.inr ⟨f, r, rfl, hcd, rfl⟩⟩

theorem c1_witness :
    (defDiffTotals exDef exHunks).1 = (exHunks.map (fun h =>
        if max exDef.line h.newStart ≤ min exDef.endLine (h.newStart + h.newCount - 1) then
          min exDef.endLine (h.newStart + h.newCount - 1) - max exDef.line h.newStart + 1
        else 0)).sum
    ∧ (defDiffTotals exDef exHunks).2 =
        (((exHunks.filter (fun h => decide (0 < h.oldCount ∧ h.newStart ≤ exDef.endLine ∧
            exDef.line ≤ h.newStart + h.newCount - 1))).map DiffHunk.oldCount)).sum :=
  c1_classifier_totals exDef exHunks (by decide)

theorem c2_witness :
    calculateDefinitionDiff exDef2 exHunks2 = none ↔
      (defDiffTotals exDef2 exHunks2).1 = 0 ∧ (defDiffTotals exDef2 exHunks2).2 = 0 :=
  (c2_classifier_result exDef2 exHunks2 (by decide)).1

theorem c9_witness :
    applyDiffToDefinitions [exDef] none = [exDef] ∧
    ((applyDiffToDefinitions [exDef2] (some ⟨"x.ts", exHunks2⟩)).get
        ⟨0, by decide⟩).name = ([exDef2].get ⟨0, by decide⟩).name :=
  ⟨(c9_apply_diff_frame [exDef] none).1 (Or.inl rfl),
   ((c9_apply_diff_frame [exDef2] (some ⟨"x.ts", exHunks2⟩)).2.2 0 (by decide)
      (by decide)).1⟩

/-! ## Character lemmas -/

theorem isDigit_toNat (c : Char) (h : c.isDigit = true) :
    48 ≤ c.toNat ∧ c.toNat ≤ 57 := by
  unfold Char.isDigit at h
  simp at h
  exact h

theorem char_eq_of_toNat (c d : Char) (h : c.toNat = d.toNat) : c = d := by
  apply Char.ext
  apply UInt32.ext
  simpa using h

theorem digit_not_jsWs (c : Char) (h : c.isDigit = true) : jsWs c = false := by
  obtain ⟨h1, h2⟩ := isDigit_toNat c h
  simp only [jsWs, Bool.or_eq_false_iff, beq_eq_false_iff_ne, ne_eq]
  refine ⟨⟨⟨⟨⟨⟨⟨?_, ?_⟩, ?_⟩, ?_⟩, ?_⟩, ?_⟩, ?_⟩, ?_⟩ <;>
    intro hc <;> first
      | (have h2 := congrArg Char.toNat hc; simp at h2; omega)
      | omega

/-! ## Split / join lemmas -/

theorem splitOnChar_ne_nil (sep : Char) (l : List Char) :
    splitOnChar sep l ≠ [] := by
  cases l with
  | nil => simp [splitOnChar]
  | cons c rest =>
    simp only [splitOnChar]
    by_cases hc : c = sep
    · simp [hc]
    · simp only [hc, if_false, ite_false]
      cases h : splitOnChar sep rest with
      | nil => simp
      | cons a t => simp

theorem joinChar_splitOnChar (sep : Char) (l : List Char) :
    joinChar sep (splitOnChar sep l) = l := by
  induction l with
  | nil => rfl
  | cons c rest ih =>
    simp only [splitOnChar]
    obtain ⟨a, t, hr⟩ := List.exists_cons_of_ne_nil (splitOnChar_ne_nil sep rest)
    by_cases hc : c = sep
    · subst hc
      rw [if_pos rfl, hr]
      rw [hr] at ih
      simpa [joinChar] using ih
    · rw [if_neg hc, hr]
      rw [hr] at ih
      cases t with
      | nil => simpa [joinChar] using ih
      | cons b t2 => simpa [joinChar] using ih

theorem mem_joinChar (sep : Char) (parts : List (List Char)) (part : List Char)
    (hp : part ∈ parts) (c : Char) (hc : c ∈ part) : c ∈ joinChar sep parts := by
  induction parts with
  | nil => simp at hp
  | cons a t ih =>
    cases t with
    | nil =>
      simp only [List.mem_singleton] at hp
      subst hp
      simpa [joinChar] using hc
    | cons b t2 =>
      have hj : joinChar sep (a :: b :: t2) = a ++ sep :: joinChar sep (b :: t2) := rfl
      rw [hj]
      rcases List.mem_cons.mp hp with rfl | hp2
      · exact List.mem_append_left _ hc
      · exact List.mem_append_right _ (List.mem_cons_of_mem _ (ih hp2))

/-! ## `parseInt` lemmas -/

theorem readDec_has_digit (r : List Char) (n : Nat) (h : readDec r = some n) :
    ∃ c ∈ r, c.isDigit = true := by
  unfold readDec at h
  by_cases he : r.takeWhile Char.isDigit = []
  · simp [he] at h
  · obtain ⟨c, t, hct⟩ := List.exists_cons_of_ne_nil he
    refine ⟨c, ?_, ?_⟩
    · exact List.takeWhile_subset _ (hct ▸ List.mem_cons_self c t)
    · exact List.mem_takeWhile_imp (hct ▸ List.mem_cons_self c t)

theorem jsParseInt10_has_digit (a : List Char) (x : Int)
    (h : jsParseInt10 a = some x) : ∃ c ∈ a, c.isDigit = true := by
  unfold jsParseInt10 at h
  split at h
  · rename_i rest heq
    obtain ⟨n, hn, -⟩ := Option.map_eq_some'.mp h
    obtain ⟨c, hc, hcd⟩ := readDec_has_digit _ _ hn
    exact ⟨c, List.dropWhile_subset _ (heq ▸ List.mem_cons_of_mem _ hc), hcd⟩
  · rename_i rest heq
    obtain ⟨n, hn, -⟩ := Option.map_eq_some'.mp h
    obtain ⟨c, hc, hcd⟩ := readDec_has_digit _ _ hn
    exact ⟨c, List.dropWhile_subset _ (heq ▸ List.mem_cons_of_mem _ hc), hcd⟩
  · obtain ⟨n, hn, -⟩ := Option.map_eq_some'.mp h
    obtain ⟨c, hc, hcd⟩ := readDec_has_digit _ _ hn
    exact ⟨c, List.dropWhile_subset _ hc, hcd⟩

theorem jsParseInt10_nonneg_of_digits (a : List Char) (x : Int)
    (hd : ∀ c ∈ a, c.isDigit = true) (h : jsParseInt10 a = some x) : 0 ≤ x := by
  cases a with
  | nil => simp [jsParseInt10, readDec] at h
  | cons c t =>
    have hcd : c.isDigit = true := hd c (List.mem_cons_self c t)
    have hdrop : (c :: t).dropWhile jsWs = c :: t := by
      rw [List.dropWhile_cons, digit_not_jsWs c hcd]
      simp
    unfold jsParseInt10 at h
    rw [hdrop] at h
    split at h
    · rename_i rest heq
      obtain ⟨rfl, -⟩ := List.cons.injEq .. ▸ heq
      exact absurd hcd (by decide)
    · rename_i rest heq
      obtain ⟨rfl, -⟩ := List.cons.injEq .. ▸ heq
      exact absurd hcd (by decide)
    · obtain ⟨n, -, rfl⟩ := Option.map_eq_some'.mp h
      exact Int.natCast_nonneg n

/-! ## `parseNumstat` structure lemmas -/

theorem foldl_numstatRow (lines : List (List Char))
    (m : List (String × FileDiffStats)) :
    lines.foldl (fun m line =>
      match numstatRow line with
      | some (p, v) => mapSet m p v
      | none => m) m =
    (lines.filterMap numstatRow).foldl (fun m r => mapSet m r.1 r.2) m := by
  induction lines generalizing m with
  | nil => rfl
  | cons line t ih =>
    rw [List.foldl_cons, List.filterMap_cons]
    cases h : numstatRow line with
    | none => simpa [h] using ih _
    | some pv =>
      obtain ⟨p, v⟩ := pv
      simpa [h] using ih _

theorem mapGet_foldl_mapSet (rows : List (String × FileDiffStats))
    (m : List (String × FileDiffStats)) (p : String) :
    mapGet (rows.foldl (fun m r => mapSet m r.1 r.2) m) p =
      ((rows.reverse.find? (fun r => r.1 == p)).map Prod.snd).or (mapGet m p) := by
  induction rows generalizing m with
  | nil => simp
  | cons r t ih =>
    rw [List.foldl_cons, ih, List.reverse_cons, List.find?_append]
    cases h : t.reverse.find? (fun r => r.1 == p) with
    | some x => simp
    | none =>
      rw [mapGet_mapSet]
      by_cases hp : r.1 = p
      · simp [List.find?, hp]
      · have : (r.1 == p) = false := by simpa using hp
        simp [List.find?, this, hp]

theorem mapGet_parseNumstat (s : String) (p : String) :
    mapGet (parseNumstat s) p =
      ((numstatRows s).reverse.find? (fun r => r.1 == p)).map Prod.snd := by
  unfold parseNumstat numstatRows
  by_cases hws : s.data.all jsWs
  · simp [hws, mapGet]
  · simp only [hws, Bool.false_eq_true, if_false, ite_false]
    rw [foldl_numstatRow, mapGet_foldl_mapSet]
    simp [mapGet]

theorem numstatRow_eq_some (line : List Char) (pv : String × FileDiffStats)
    (h : numstatRow line = some pv) :
    ∃ a d p1 ps x y, splitOnChar '\t' line = a :: d :: p1 :: ps ∧
      a ≠ ['-'] ∧ d ≠ ['-'] ∧
      jsParseInt10 a = some x ∧ jsParseInt10 d = some y ∧
      ¬(x = 0 ∧ y = 0) ∧ pv.2 = ⟨x, y⟩ := by
  unfold numstatRow at h
  split at h
  · exact absurd h (by simp)
  split at h
  case _ a d p1 ps heq =>
    split at h
    · exact absurd h (by simp)
    · rename_i hdash
      split at h
      case _ x y hx hy =>
        split at h
        · exact absurd h (by simp)
        · rename_i hxy
          refine ⟨a, d, p1, ps, x, y, heq, ?_, ?_, hx, hy, hxy, ?_⟩
          · intro ha
            exact hdash (Or.inl ha)
          · intro hd2
            exact hdash (Or.inr hd2)
          · injection h with h2
            exact (congrArg Prod.snd h2).symm
      · exact absurd h (by simp)
  · exact absurd h (by simp)

/-- C5: `parseNumstat` skips a row when a count field is the binary marker
`-`, when a count field fails to parse, or when both counts parse to zero;
every other well-formed row is inserted under its normalized path (rejoined
from the extra tab fields), and on duplicate paths the later row wins. -/
theorem c5_numstat_rows :
    (∀ line a d ps, splitOnChar '\t' line = a :: d :: ps → ps ≠ [] →
      (a = ['-'] ∨ d = ['-']) → numstatRow line = none)
    ∧ (∀ line a d ps, splitOnChar '\t' line = a :: d :: ps → ps ≠ [] →
      (jsParseInt10 a = none ∨ jsParseInt10 d = none) → numstatRow line = none)
    ∧ (∀ line a d ps, splitOnChar '\t' line = a :: d :: ps → ps ≠ [] →
      jsParseInt10 a = some 0 → jsParseInt10 d = some 0 → numstatRow line = none)
    ∧ (∀ line a d p1 ps x y, splitOnChar '\t' line = a :: d :: p1 :: ps →
      ¬(a = ['-'] ∨ d = ['-']) → jsParseInt10 a = some x → jsParseInt10 d = some y →
      ¬(x = 0 ∧ y = 0) →
      numstatRow line = some (String.mk (normalizePathL (joinTab (p1 :: ps))), ⟨x, y⟩))
    ∧ (∀ s p, mapGet (parseNumstat s) p =
        ((numstatRows s).reverse.find? (fun r => r.1 == p)).map Prod.snd) := by
  refine ⟨?_, ?_, ?_, ?_, fun s p => mapGet_parseNumstat s p⟩
  · intro line a d ps hsplit hne hdash
    by_cases hws : line.all jsWs
    · simp [numstatRow, hws]
    · obtain ⟨p1, ps2, rfl⟩ := List.exists_cons_of_ne_nil hne
      unfold numstatRow
      rw [hsplit, if_neg hws]
      simp only []
      rw [if_pos hdash]
  · intro line a d ps hsplit hne hpf
    by_cases hws : line.all jsWs
    · simp [numstatRow, hws]
    · obtain ⟨p1, ps2, rfl⟩ := List.exists_cons_of_ne_nil hne
      unfold numstatRow
      rw [hsplit, if_neg hws]
      simp only []
      by_cases hdash : a = ['-'] ∨ d = ['-']
      · rw [if_pos hdash]
      · rw [if_neg hdash]
        rcases hpf with h | h
        · rw [h]
        · rw [h]
          cases ha : jsParseInt10 a <;> rfl
  · intro line a d ps hsplit hne hx hy
    by_cases hws : line.all jsWs
    · simp [numstatRow, hws]
    · obtain ⟨p1, ps2, rfl⟩ := List.exists_cons_of_ne_nil hne
      unfold numstatRow
      rw [hsplit, if_neg hws]
      simp only []
      by_cases hdash : a = ['-'] ∨ d = ['-']
      · rw [if_pos hdash]
      · rw [if_neg hdash, hx, hy]
        simp
  · intro line a d p1 ps x y hsplit hdash hx hy hxy
    have hws : ¬ line.all jsWs = true := by
      obtain ⟨c, hc, hcd⟩ := jsParseInt10_has_digit a x hx
      have hmem : c ∈ line := by
        have hline : line = joinChar '\t' (splitOnChar '\t' line) :=
          (joinChar_splitOnChar _ _).symm
        rw [hline]
        refine mem_joinChar _ _ a ?_ c hc
        rw [hsplit]
        exact List.mem_cons_self a _
      intro hall
      have hwsc := List.all_eq_true.mp hall c hmem
      rw [digit_not_jsWs c hcd] at hwsc
      exact Bool.false_ne_true hwsc
    unfold numstatRow
    rw [hsplit, if_neg hws]
    simp only []
    rw [if_neg hdash, hx, hy]
    simp only []
    rw [if_neg hxy]

theorem c5_witness :
    numstatRow ("-\t3\tf".data) = none ∧
    numstatRow ("x\t3\tf".data) = none ∧
    numstatRow ("0\t0\tf".data) = none ∧
    numstatRow ("5\t3\tf".data) =
      some (String.mk (normalizePathL (joinTab [['f']])), ⟨5, 3⟩) ∧
    mapGet (parseNumstat "5\t3\tf\n7\t1\tf") "f" = some ⟨7, 1⟩ := by
  refine ⟨?_, ?_, ?_, ?_, ?_⟩
  · exact c5_numstat_rows.1 ("-\t3\tf".data) ['-'] ['3'] [['f']]
      (by decide) (by decide) (Or.inl rfl)
  · exact c5_numstat_rows.2.1 ("x\t3\tf".data) ['x'] ['3'] [['f']]
      (by decide) (by decide) (Or.inl (by decide))
  · exact c5_numstat_rows.2.2.1 ("0\t0\tf".data) ['0'] ['0'] [['f']]
      (by decide) (by decide) (by decide) (by decide)
  · exact c5_numstat_rows.2.2.2.1 ("5\t3\tf".data) ['5'] ['3'] ['f'] [] 5 3
      (by decide) (by decide) (by decide) (by decide) (by decide)
  · rw [c5_numstat_rows.2.2.2.2 "5\t3\tf\n7\t1\tf" "f"]
    decide

/-- C7 as stated is false: a numstat line whose count field is a negative
number string (not the binary marker) is inserted with a negative count. -/
theorem c7_counterexample :
    mapGet (parseNumstat "-5\t3\tf") "f" = some ⟨-5, 3⟩ ∧ ((-5 : Int) < 0) := by
  decide

/-- C7, amended: no entry of the `parseNumstat` result has both counts
zero; and when every line's count fields are digit strings or the binary
marker (as genuine `git diff --numstat` output guarantees), every entry has
non-negative `added` and `deleted`. -/
theorem c7_stats_invariant (s : String) :
    (∀ p v, mapGet (parseNumstat s) p = some v → ¬(v.added = 0 ∧ v.deleted = 0))
    ∧ ((∀ line ∈ splitOnChar '\n' s.data, dashOrDigitFields line = true) →
       ∀ p v, mapGet (parseNumstat s) p = some v →
         0 ≤ v.added ∧ 0 ≤ v.deleted) := by
  have hextract : ∀ p v, mapGet (parseNumstat s) p = some v →
      ∃ line ∈ splitOnChar '\n' s.data, ∃ pv, numstatRow line = some pv ∧ pv.2 = v := by
    intro p v h
    rw [mapGet_parseNumstat] at h
    obtain ⟨r, hfind, hr2⟩ := Option.map_eq_some'.mp h
    have hmem : r ∈ (numstatRows s).reverse := List.mem_of_find?_eq_some hfind
    rw [List.mem_reverse] at hmem
    unfold numstatRows at hmem
    split at hmem
    · simp at hmem
    · obtain ⟨line, hline, hrow⟩ := List.mem_filterMap.mp hmem
      exact ⟨line, hline, r, hrow, hr2⟩
  constructor
  · intro p v h hzero
    obtain ⟨line, -, pv, hrow, hv⟩ := hextract p v h
    obtain ⟨a, d, p1, ps, x, y, -, -, -, -, -, hxy, hpv2⟩ :=
      numstatRow_eq_some line pv hrow
    rw [hv] at hpv2
    apply hxy
    rw [hpv2] at hzero
    exact hzero
  · intro hfields p v h
    obtain ⟨line, hline, pv, hrow, hv⟩ := hextract p v h
    obtain ⟨a, d, p1, ps, x, y, hsplit, ha, hd2, hx, hy, -, hpv2⟩ :=
      numstatRow_eq_some line pv hrow
    have hdig : dashOrDigitFields line = true := hfields line hline
    unfold dashOrDigitFields at hdig
    rw [hsplit] at hdig
    simp only [Bool.and_eq_true, Bool.or_eq_true, beq_iff_eq] at hdig
    obtain ⟨hda, hdd⟩ := hdig
    have hxa : 0 ≤ x := by
      rcases hda with hda | hda
      · exact absurd hda ha
      · exact jsParseInt10_nonneg_of_digits a x (List.all_eq_true.mp hda) hx
    have hya : 0 ≤ y := by
      rcases hdd with hdd | hdd
      · exact absurd hdd hd2
      · exact jsParseInt10_nonneg_of_digits d y (List.all_eq_true.mp hdd) hy
    rw [hv] at hpv2
    rw [hpv2]
    exact ⟨hxa, hya⟩

theorem c7_witness :
    (¬(((7 : Int) = 0) ∧ ((1 : Int) = 0))) ∧
    (0 ≤ (7 : Int) ∧ 0 ≤ (1 : Int)) :=
  ⟨(c7_stats_invariant "5\t3\tf\n7\t1\tf").1 "f" ⟨7, 1⟩ (by decide),
   (c7_stats_invariant "5\t3\tf\n7\t1\tf").2 (by decide) "f" ⟨7, 1⟩ (by decide)⟩

/-! ## Literal and digit-run lemmas for the hunk-header pattern -/

theorem stripLit_append (lit r : List Char) : stripLit lit (lit ++ r) = some r := by
  induction lit with
  | nil => rfl
  | cons c cs ih => simp [stripLit, ih]

theorem stripLit_eq_some (lit : List Char) :
    ∀ l r, stripLit lit l = some r → l = lit ++ r := by
  induction lit with
  | nil =>
    intro l r h
    simp only [stripLit, Option.some.injEq] at h
    simp [h]
  | cons c cs ih =>
    intro l r h
    cases l with
    | nil => simp [stripLit] at h
    | cons x xs =>
      simp only [stripLit] at h
      split_ifs at h with hx
      · subst hx
        simp [ih xs r h]

theorem dropWhile_head_false (p : Char → Bool) (l : List Char) :
    ∀ c t, l.dropWhile p = c :: t → p c = false := by
  induction l with
  | nil => intro c t h; simp at h
  | cons a l2 ih =>
    intro c t h
    rw [List.dropWhile_cons] at h
    split_ifs at h with ha
    · exact ih c t h
    · injection h with h1 h2
      subst h1
      simpa using ha

theorem takeWhile_digits_append (d r : List Char) (hd : ∀ c ∈ d, c.isDigit = true)
    (hr : ∀ c t, r = c :: t → c.isDigit = false) :
    (d ++ r).takeWhile Char.isDigit = d ∧ (d ++ r).dropWhile Char.isDigit = r := by
  induction d with
  | nil =>
    simp only [List.nil_append]
    cases r with
    | nil => simp
    | cons c t =>
      have hc := hr c t rfl
      rw [List.takeWhile_cons, List.dropWhile_cons, hc]
      simp
  | cons a d2 ih =>
    have ha := hd a (List.mem_cons_self a d2)
    have ih2 := ih (fun c hc => hd c (List.mem_cons_of_mem a hc))
    rw [List.cons_append, List.takeWhile_cons, List.dropWhile_cons, ha]
    simp [ih2.1, ih2.2]

theorem readNum_complete (d r : List Char) (hne : d ≠ [])
    (hd : ∀ c ∈ d, c.isDigit = true)
    (hr : ∀ c t, r = c :: t → c.isDigit = false) :
    readNum (d ++ r) = some (digitsVal d, r) := by
  obtain ⟨ht, hdr⟩ := takeWhile_digits_append d r hd hr
  unfold readNum
  rw [ht, hdr]
  cases d with
  | nil => exact absurd rfl hne
  | cons a t => rfl

theorem readNum_sound (l : List Char) (n : Nat) (r : List Char)
    (h : readNum l = some (n, r)) :
    ∃ d, l = d ++ r ∧ d ≠ [] ∧ (∀ c ∈ d, c.isDigit = true) ∧ digitsVal d = n ∧
      (∀ c t, r = c :: t → c.isDigit = false) := by
  unfold readNum at h
  by_cases he : l.takeWhile Char.isDigit = []
  · rw [he] at h
    exact absurd h (by simp)
  · obtain ⟨a, t, hat⟩ := List.exists_cons_of_ne_nil he
    rw [hat] at h
    injection h with h2
    injection h2 with hn hr2
    refine ⟨a :: t, ?_, by simp, ?_, hn, ?_⟩
    · have hsplit : l.takeWhile Char.isDigit ++ l.dropWhile Char.isDigit = l :=
        List.takeWhile_append_dropWhile ..
      rw [hat, hr2] at hsplit
      exact hsplit.symm
    · intro c hc
      have hcm : c ∈ l.takeWhile Char.isDigit := by
        rw [hat]
        exact hc
      exact List.mem_takeWhile_imp hcm
    · intro c t2 hct
      apply dropWhile_head_false Char.isDigit l c t2
      rw [hr2, hct]

theorem readNumPair_complete_one (d r : List Char) (hne : d ≠ [])
    (hd : ∀ c ∈ d, c.isDigit = true)
    (hr : ∀ c t, r = c :: t → c.isDigit = false ∧ c ≠ ',') :
    readNumPair (d ++ r) = some (digitsVal d, 1, r) := by
  unfold readNumPair
  rw [readNum_complete d r hne hd (fun c t h => (hr c t h).1)]
  cases r with
  | nil => rfl
  | cons c t =>
    have hc := (hr c t rfl).2
    simp only []
    split
    · rename_i heq
      injection heq with h1 h2
      exact absurd h1 hc
    · rfl

theorem readNumPair_complete_comma (d1 d2 r : List Char) (h1 : d1 ≠ [])
    (hd1 : ∀ c ∈ d1, c.isDigit = true) (h2 : d2 ≠ [])
    (hd2 : ∀ c ∈ d2, c.isDigit = true)
    (hr : ∀ c t, r = c :: t → c.isDigit = false) :
    readNumPair (d1 ++ ',' :: (d2 ++ r)) = some (digitsVal d1, digitsVal d2, r) := by
  unfold readNumPair
  have hfirst : readNum (d1 ++ ',' :: (d2 ++ r)) =
      some (digitsVal d1, ',' :: (d2 ++ r)) := by
    refine readNum_complete d1 _ h1 hd1 ?_
    intro c t h
    injection h with hc ht
    rw [← hc]
    decide
  rw [hfirst]
  simp only []
  rw [readNum_complete d2 r h2 hd2 hr]

theorem readNumPair_sound (l : List Char) (a b : Nat) (r : List Char)
    (h : readNumPair l = some (a, b, r)) :
    (∃ d, l = d ++ r ∧ d ≠ [] ∧ (∀ c ∈ d, c.isDigit = true) ∧ digitsVal d = a ∧
      b = 1 ∧ (∀ c t, r = c :: t → c.isDigit = false)) ∨
    (∃ d1 d2, l = d1 ++ ',' :: (d2 ++ r) ∧ d1 ≠ [] ∧ (∀ c ∈ d1, c.isDigit = true) ∧
      d2 ≠ [] ∧ (∀ c ∈ d2, c.isDigit = true) ∧
      digitsVal d1 = a ∧ digitsVal d2 = b ∧
      (∀ c t, r = c :: t → c.isDigit = false)) := by
  unfold readNumPair at h
  cases hn : readNum l with
  | none => rw [hn] at h; exact absurd h (by simp)
  | some pr =>
    obtain ⟨a0, r0⟩ := pr
    rw [hn] at h
    simp only [] at h
    obtain ⟨d, hl, hdne, hdd, hdv, hhead⟩ := readNum_sound l a0 r0 hn
    split at h
    · rename_i rest2
      cases hn2 : readNum rest2 with
      | none =>
        rw [hn2] at h
        injection h with h2
        injection h2 with ha h3
        injection h3 with hb hrr
        left
        exact ⟨d, hrr ▸ hl, hdne, hdd, ha ▸ hdv, hb.symm, hrr ▸ hhead⟩
      | some pr2 =>
        obtain ⟨b0, r3⟩ := pr2
        rw [hn2] at h
        injection h with h2
        injection h2 with ha h3
        injection h3 with hb hrr
        obtain ⟨d2, hl2, hd2ne, hd2d, hd2v, hhead2⟩ := readNum_sound rest2 b0 r3 hn2
        right
        refine ⟨d, d2, ?_, hdne, hdd, hd2ne, hd2d, ha ▸ hdv, hb ▸ hd2v, hrr ▸ hhead2⟩
        rw [hl, hl2, hrr]
    · injection h with h2
      injection h2 with ha h3
      injection h3 with hb hrr
      left
      exact ⟨d, hrr ▸ hl, hdne, hdd, ha ▸ hdv, hb.symm, hrr ▸ hhead⟩

/-! ## Soundness and completeness of the hunk-header matcher -/

theorem matchHunkAt_sound (l : List Char) (h : DiffHunk)
    (hm : matchHunkAt l = some h) : hunkGrammarAt l h := by
  unfold matchHunkAt at hm
  cases h1 : stripLit "@@ -".data l with
  | none => rw [h1] at hm; exact absurd hm (by simp)
  | some l1 =>
    rw [h1] at hm
    simp only [] at hm
    cases h2 : readNumPair l1 with
    | none => rw [h2] at hm; exact absurd hm (by simp)
    | some t1 =>
      obtain ⟨os, oc, l2⟩ := t1
      rw [h2] at hm
      simp only [] at hm
      cases h3 : stripLit " +".data l2 with
      | none => rw [h3] at hm; exact absurd hm (by simp)
      | some l3 =>
        rw [h3] at hm
        simp only [] at hm
        cases h4 : readNumPair l3 with
        | none => rw [h4] at hm; exact absurd hm (by simp)
        | some t2 =>
          obtain ⟨ns, nc, l4⟩ := t2
          rw [h4] at hm
          simp only [] at hm
          cases h5 : stripLit " @@".data l4 with
          | none => rw [h5] at hm; exact absurd hm (by simp)
          | some rest =>
            rw [h5] at hm
            simp only [] at hm
            injection hm with hm2
            have hl : l = "@@ -".data ++ l1 := stripLit_eq_some _ _ _ h1
            have hl2 : l2 = " +".data ++ l3 := stripLit_eq_some _ _ _ h3
            have hl4 : l4 = " @@".data ++ rest := stripLit_eq_some _ _ _ h5
            rcases readNumPair_sound l1 os oc l2 h2 with
              ⟨d1, he1, hne1, hdig1, hv1, hoc1, -⟩ |
              ⟨d1, e1, he1, hne1, hdig1, hnee1, hdige1, hv1, hoc1, -⟩ <;>
            rcases readNumPair_sound l3 ns nc l4 h4 with
              ⟨d2, he2, hne2, hdig2, hv2, hnc2, -⟩ |
              ⟨d2, e2, he2, hne2, hdig2, hnee2, hdige2, hv2, hnc2, -⟩
            · refine ⟨d1, [], d2, [], rest, oc, nc, ⟨hne1, hdig1⟩,
                Or.inl ⟨rfl, hoc1⟩, ⟨hne2, hdig2⟩, Or.inl ⟨rfl, hnc2⟩, ?_, ?_⟩
              · rw [hl, he1, hl2, he2, hl4]
                simp
              · rw [← hm2, ← hv1, ← hv2]
            · refine ⟨d1, [], d2, ',' :: e2, rest, oc, nc, ⟨hne1, hdig1⟩,
                Or.inl ⟨rfl, hoc1⟩, ⟨hne2, hdig2⟩,
                Or.inr ⟨e2, ⟨hnee2, hdige2⟩, rfl, hnc2.symm⟩, ?_, ?_⟩
              · rw [hl, he1, hl2, he2, hl4]
                simp
              · rw [← hm2, ← hv1, ← hv2]
            · refine ⟨d1, ',' :: e1, d2, [], rest, oc, nc, ⟨hne1, hdig1⟩,
                Or.inr ⟨e1, ⟨hnee1, hdige1⟩, rfl, hoc1.symm⟩, ⟨hne2, hdig2⟩,
                Or.inl ⟨rfl, hnc2⟩, ?_, ?_⟩
              · rw [hl, he1, hl2, he2, hl4]
                simp
              · rw [← hm2, ← hv1, ← hv2]
            · refine ⟨d1, ',' :: e1, d2, ',' :: e2, rest, oc, nc, ⟨hne1, hdig1⟩,
                Or.inr ⟨e1, ⟨hnee1, hdige1⟩, rfl, hoc1.symm⟩, ⟨hne2, hdig2⟩,
                Or.inr ⟨e2, ⟨hnee2, hdige2⟩, rfl, hnc2.symm⟩, ?_, ?_⟩
              · rw [hl, he1, hl2, he2, hl4]
                simp
              · rw [← hm2, ← hv1, ← hv2]

theorem matchHunkAt_complete (l : List Char) (h : DiffHunk)
    (hg : hunkGrammarAt l h) : matchHunkAt l = some h := by
  obtain ⟨d1, c1, d2, c2, rest, oc, nc, ⟨hne1, hdig1⟩, hc1, ⟨hne2, hdig2⟩, hc2,
    hleq, hh⟩ := hg
  subst hleq
  subst hh
  have hpair2 : readNumPair (d2 ++ (c2 ++ (" @@".data ++ rest))) =
      some (digitsVal d2, nc, " @@".data ++ rest) := by
    rcases hc2 with ⟨rfl, rfl⟩ | ⟨ds, ⟨hdsne, hdsd⟩, rfl, rfl⟩
    · rw [List.nil_append]
      exact readNumPair_complete_one d2 _ hne2 hdig2
        (fun c t hct => by injection hct with hc2 ht; rw [← hc2]; exact ⟨by decide, by decide⟩)
    · rw [List.cons_append]
      exact readNumPair_complete_comma d2 ds _ hne2 hdig2 hdsne hdsd
        (fun c t hct => by injection hct with hc2 ht; rw [← hc2]; decide)
  have hpair1 : readNumPair (d1 ++ (c1 ++ (" +".data ++ (d2 ++ (c2 ++ (" @@".data ++ rest)))))) =
      some (digitsVal d1, oc, " +".data ++ (d2 ++ (c2 ++ (" @@".data ++ rest)))) := by
    rcases hc1 with ⟨rfl, rfl⟩ | ⟨ds, ⟨hdsne, hdsd⟩, rfl, rfl⟩
    · rw [List.nil_append]
      exact readNumPair_complete_one d1 _ hne1 hdig1
        (fun c t hct => by injection hct with hc2 ht; rw [← hc2]; exact ⟨by decide, by decide⟩)
    · rw [List.cons_append]
      exact readNumPair_complete_comma d1 ds _ hne1 hdig1 hdsne hdsd
        (fun c t hct => by injection hct with hc2 ht; rw [← hc2]; decide)
  unfold matchHunkAt
  simp only [List.append_assoc]
  rw [stripLit_append]
  simp only []
  rw [hpair1]
  simp only []
  rw [stripLit_append]
  simp only []
  rw [hpair2]
  simp only []
  rw [stripLit_append]

/-! ## Scan lemmas -/

theorem matchHunkAt_nil : matchHunkAt ([] : List Char) = none := rfl

theorem scanHunk_of_head (l : List Char) (h : DiffHunk)
    (hm : matchHunkAt l = some h) : scanHunk l = some h := by
  cases l with
  | nil => rw [matchHunkAt_nil] at hm; exact absurd hm (by simp)
  | cons c t =>
    unfold scanHunk
    rw [hm]

theorem scanHunk_sound (l : List Char) (h : DiffHunk) (hs : scanHunk l = some h) :
    ∃ i, matchHunkAt (l.drop i) = some h := by
  induction l with
  | nil => simp [scanHunk] at hs
  | cons c t ih =>
    unfold scanHunk at hs
    cases hm : matchHunkAt (c :: t) with
    | some h2 =>
      rw [hm] at hs
      injection hs with hs2
      exact ⟨0, by simpa [hs2] using hm⟩
    | none =>
      rw [hm] at hs
      simp only [] at hs
      obtain ⟨i, hi⟩ := ih hs
      exact ⟨i + 1, by simpa using hi⟩

theorem scanHunk_isSome_iff (l : List Char) :
    (scanHunk l).isSome = true ↔ ∃ i h, matchHunkAt (l.drop i) = some h := by
  induction l with
  | nil =>
    simp only [scanHunk, Option.isSome_none, List.drop_nil, matchHunkAt_nil]
    simp
  | cons c t ih =>
    unfold scanHunk
    cases hm : matchHunkAt (c :: t) with
    | some h2 =>
      simp only [Option.isSome_some, true_iff]
      exact ⟨0, h2, by simpa using hm⟩
    | none =>
      simp only []
      rw [ih]
      constructor
      · rintro ⟨i, h2, hi⟩
        exact ⟨i + 1, h2, by simpa using hi⟩
      · rintro ⟨i, h2, hi⟩
        cases i with
        | zero =>
          rw [List.drop_zero] at hi
          rw [hi] at hm
          exact absurd hm (by simp)
        | succ j =>
          exact ⟨j, h2, by simpa using hi⟩

/-! ## `parseDiff` step equations and invariant -/

theorem scanHunk_nonneg (l : List Char) (h : DiffHunk) (hs : scanHunk l = some h) :
    hunkNonneg h := by
  obtain ⟨i, hi⟩ := scanHunk_sound _ _ hs
  obtain ⟨d1, c1, d2, c2, rest, oc, nc, -, -, -, -, -, hh⟩ := matchHunkAt_sound _ _ hi
  rw [hh]
  exact ⟨Int.natCast_nonneg _, Int.natCast_nonneg _,
    Int.natCast_nonneg _, Int.natCast_nonneg _⟩

theorem diffLineStep_header (st : DiffScanState) (line : List Char)
    (h : startsWithL "diff --git ".data line = true) :
    diffLineStep st line =
      ⟨flushFile st.files st.currentFile st.hunks,
       (scanDiffGit line).map (fun cap => String.mk (normalizePathL cap)), []⟩ := by
  unfold diffLineStep
  rw [if_pos h]

theorem diffLineStep_binary (st : DiffScanState) (line : List Char)
    (h1 : startsWithL "diff --git ".data line = false)
    (h2 : startsWithL "Binary files ".data line = true) :
    diffLineStep st line = ⟨st.files, none, []⟩ := by
  unfold diffLineStep
  rw [if_neg (by simp [h1]), if_pos h2]

theorem diffLineStep_plain (st : DiffScanState) (line : List Char)
    (h1 : startsWithL "diff --git ".data line = false)
    (h2 : startsWithL "Binary files ".data line = false) :
    diffLineStep st line =
      if startsWithL "@@".data line && jsTruthy st.currentFile then
        match scanHunk line with
        | some h => { st with hunks := st.hunks ++ [h] }
        | none => st
      else st := by
  unfold diffLineStep
  rw [if_neg (by simp [h1]), if_neg (by simp [h2])]

theorem flushFile_inv (files : List (String × FileDiff)) (cf : Option String)
    (hunks : List DiffHunk)
    (hfiles : ∀ p fd, mapGet files p = some fd →
      fd.path = p ∧ fd.hunks ≠ [] ∧ ∀ h ∈ fd.hunks, hunkNonneg h)
    (hhunks : ∀ h ∈ hunks, hunkNonneg h) :
    ∀ p fd, mapGet (flushFile files cf hunks) p = some fd →
      fd.path = p ∧ fd.hunks ≠ [] ∧ ∀ h ∈ fd.hunks, hunkNonneg h := by
  intro p fd hget
  unfold flushFile at hget
  cases cf with
  | none =>
    simp only [] at hget
    exact hfiles p fd hget
  | some f =>
    simp only [] at hget
    split_ifs at hget with hcond
    · rw [mapGet_mapSet] at hget
      split_ifs at hget with hfp
      · injection hget with hg2
        subst hfp
        rw [← hg2]
        refine ⟨rfl, ?_, hhunks⟩
        intro hnil
        have hnil2 : hunks = [] := hnil
        rw [hnil2] at hcond
        simp at hcond
      · exact hfiles p fd hget
    · exact hfiles p fd hget

theorem diffLineStep_inv (st : DiffScanState) (line : List Char)
    (h1 : ∀ p fd, mapGet st.files p = some fd →
      fd.path = p ∧ fd.hunks ≠ [] ∧ ∀ h ∈ fd.hunks, hunkNonneg h)
    (h2 : ∀ h ∈ st.hunks, hunkNonneg h) :
    (∀ p fd, mapGet (diffLineStep st line).files p = some fd →
      fd.path = p ∧ fd.hunks ≠ [] ∧ ∀ h ∈ fd.hunks, hunkNonneg h) ∧
    (∀ h ∈ (diffLineStep st line).hunks, hunkNonneg h) := by
  by_cases hh : startsWithL "diff --git ".data line = true
  · rw [diffLineStep_header st line hh]
    exact ⟨flushFile_inv _ _ _ h1 h2, by simp⟩
  · rw [Bool.not_eq_true] at hh
    by_cases hb : startsWithL "Binary files ".data line = true
    · rw [diffLineStep_binary st line hh hb]
      exact ⟨h1, by simp⟩
    · rw [Bool.not_eq_true] at hb
      rw [diffLineStep_plain st line hh hb]
      split_ifs with hc
      · cases hs : scanHunk line with
        | some h =>
          refine ⟨h1, ?_⟩
          intro x hx
          rcases List.mem_append.mp hx with hx | hx
          · exact h2 x hx
          · rw [List.mem_singleton] at hx
            subst hx
            exact scanHunk_nonneg _ _ hs
        | none => exact ⟨h1, h2⟩
      · exact ⟨h1, h2⟩

theorem foldl_diffLineStep_inv (lines : List (List Char)) :
    ∀ st : DiffScanState,
      (∀ p fd, mapGet st.files p = some fd → fd.path = p ∧ fd.hunks ≠ [] ∧
        ∀ h ∈ fd.hunks, hunkNonneg h) →
      (∀ h ∈ st.hunks, hunkNonneg h) →
      (∀ p fd, mapGet (lines.foldl diffLineStep st).files p = some fd →
        fd.path = p ∧ fd.hunks ≠ [] ∧ ∀ h ∈ fd.hunks, hunkNonneg h) ∧
      (∀ h ∈ (lines.foldl diffLineStep st).hunks, hunkNonneg h) := by
  induction lines with
  | nil => intro st g1 g2; exact ⟨g1, g2⟩
  | cons line t ih =>
    intro st g1 g2
    rw [List.foldl_cons]
    obtain ⟨k1, k2⟩ := diffLineStep_inv st line g1 g2
    exact ih _ k1 k2

theorem parseDiff_entry_inv (s p : String) (fd : FileDiff)
    (h : mapGet (parseDiff s) p = some fd) :
    fd.path = p ∧ fd.hunks ≠ [] ∧ ∀ h2 ∈ fd.hunks, hunkNonneg h2 := by
  unfold parseDiff at h
  split_ifs at h with hws
  · simp [mapGet] at h
  · simp only [] at h
    obtain ⟨g1, g2⟩ := foldl_diffLineStep_inv (splitOnChar '\n' s.data)
      ⟨[], none, []⟩ (by intro q fd2 hq; simp [mapGet] at hq) (by simp)
    exact flushFile_inv _ _ _ g1 g2 p fd h

/-! ## C3, C4, C8 -/

/-- C3 as stated is false: the source pattern is not anchored, so a line
that does not start with `@@` can still produce a hunk record when the
pattern occurs later in the line. -/
theorem c3_counterexample :
    parseHunkHeader "x@@ -1,2 +3,4 @@" = some ⟨1, 2, 3, 4⟩ ∧
    startsWithL "@@".data ("x@@ -1,2 +3,4 @@".data) = false ∧
    anchoredHunkHeader "x@@ -1,2 +3,4 @@" = none := by
  decide

/-- C3, amended: the pattern is unanchored — `parseHunkHeader` produces a
record exactly when some suffix of the line matches the hunk-header
grammar; on the three non-matching example lines it returns no match (and,
being a total function, it never throws). -/
theorem c3_hunk_header_match (line : String) :
    ((parseHunkHeader line).isSome = true ↔
      ∃ i h, hunkGrammarAt (line.data.drop i) h)
    ∧ parseHunkHeader "not a hunk" = none
    ∧ parseHunkHeader "" = none
    ∧ parseHunkHeader "@@@ invalid @@@" = none := by
  refine ⟨?_, by decide, by decide, by decide⟩
  unfold parseHunkHeader
  rw [scanHunk_isSome_iff]
  constructor
  · rintro ⟨i, h, hi⟩
    exact ⟨i, h, matchHunkAt_sound _ _ hi⟩
  · rintro ⟨i, h, hi⟩
    exact ⟨i, h, matchHunkAt_complete _ _ hi⟩

/-- C4 as stated is false: the parser accepts the genuine git hunk header
`@@ -0,0 +1,3 @@`, whose `oldStart` is 0, not 1-based. -/
theorem c4_counterexample :
    parseHunkHeader "@@ -0,0 +1,3 @@" = some ⟨0, 0, 1, 3⟩ ∧
    ¬(1 ≤ ((⟨0, 0, 1, 3⟩ : DiffHunk)).oldStart) := by
  decide

/-- C4, amended: every hunk produced by `parseHunkHeader` — and hence every
hunk stored in a `FileDiff` by `parseDiff` — consists of four non-negative
integers; `oldStart`/`newStart` may be 0 (git emits `-0,0` for insertions
into an empty prefix), and `oldCount`/`newCount` may be 0. -/
theorem c4_hunk_nonneg :
    (∀ (s : String) (h : DiffHunk), parseHunkHeader s = some h → hunkNonneg h)
    ∧ (∀ (s p : String) (fd : FileDiff), mapGet (parseDiff s) p = some fd →
        ∀ h ∈ fd.hunks, hunkNonneg h) := by
  constructor
  · intro s h hp
    obtain ⟨i, hi⟩ := scanHunk_sound _ _ hp
    obtain ⟨d1, c1, d2, c2, rest, oc, nc, -, -, -, -, -, hh⟩ :=
      matchHunkAt_sound _ _ hi
    rw [hh]
    exact ⟨Int.natCast_nonneg _, Int.natCast_nonneg _,
      Int.natCast_nonneg _, Int.natCast_nonneg _⟩
  · intro s p fd hfd h hmem
    exact (parseDiff_entry_inv s p fd hfd).2.2 h hmem

theorem c4_witness :
    hunkNonneg ⟨10, 5, 12, 7⟩ ∧ hunkNonneg ⟨1, 1, 1, 2⟩ :=
  ⟨c4_hunk_nonneg.1 "@@ -10,5 +12,7 @@" ⟨10, 5, 12, 7⟩ (by decide),
   c4_hunk_nonneg.2 "diff --git a/a.ts b/a.ts\n@@ -1,1 +1,2 @@\n" "a.ts"
     ⟨"a.ts", [⟨1, 1, 1, 2⟩]⟩ (by decide) ⟨1, 1, 1, 2⟩ (by decide)⟩

/-- C8: every line matching the hunk-header grammar yields the four parsed
integers, with an omitted count defaulting to 1; in particular
`@@ -10 +12,7 @@` parses to `{oldStart 10, oldCount 1, newStart 12,
newCount 7}`. -/
theorem c8_hunk_defaults :
    (∀ (s : String) (h : DiffHunk), hunkGrammarAt s.data h →
      parseHunkHeader s = some h)
    ∧ parseHunkHeader "@@ -10 +12,7 @@" = some ⟨10, 1, 12, 7⟩ := by
  constructor
  · intro s h hg
    exact scanHunk_of_head _ _ (matchHunkAt_complete _ _ hg)
  · decide

theorem c8_witness : parseHunkHeader "@@ -3,4 +5,6 @@" = some ⟨3, 4, 5, 6⟩ :=
  c8_hunk_defaults.1 "@@ -3,4 +5,6 @@" ⟨3, 4, 5, 6⟩
    ⟨['3'], [',', '4'], ['5'], [',', '6'], [], 4, 6,
     ⟨by decide, by decide⟩,
     Or.inr ⟨['4'], ⟨by decide, by decide⟩, rfl, by decide⟩,
     ⟨by decide, by decide⟩,
     Or.inr ⟨['6'], ⟨by decide, by decide⟩, rfl, by decide⟩,
     by decide, by decide⟩

/-! ## Section-level behaviour of `parseDiff` -/

theorem flushFile_none (files : List (String × FileDiff)) (hunks : List DiffHunk) :
    flushFile files none hunks = files := rfl

theorem flushFile_nil (files : List (String × FileDiff)) (cf : Option String) :
    flushFile files cf [] = files := by
  cases cf with
  | none => rfl
  | some f => simp [flushFile]

theorem flushFile_commit (files : List (String × FileDiff)) (f : String)
    (hunks : List DiffHunk) (hf : f ≠ "") (hh : hunks ≠ []) :
    flushFile files (some f) hunks = mapSet files f ⟨f, hunks⟩ := by
  unfold flushFile
  simp only []
  rw [if_pos]
  simp [hf, hh]

theorem bodyOk_spec (B : List (List Char)) (h : bodyOk B = true) :
    ∀ l ∈ B, startsWithL "diff --git ".data l = false ∧
      startsWithL "Binary files ".data l = false := by
  intro l hl
  have h2 := List.all_eq_true.mp h l hl
  simp only [Bool.and_eq_true, Bool.not_eq_true'] at h2
  exact h2

theorem header_false_of_binary (l : List Char)
    (h : startsWithL "Binary files ".data l = true) :
    startsWithL "diff --git ".data l = false := by
  unfold startsWithL at h ⊢
  cases hs : stripLit "Binary files ".data l with
  | none => rw [hs] at h; simp at h
  | some r =>
    have hl := stripLit_eq_some _ _ _ hs
    rw [hl]
    rfl

theorem foldl_body_hunks (body : List (List Char)) :
    ∀ (F : List (String × FileDiff)) (p : String) (acc : List DiffHunk),
      p ≠ "" →
      (∀ l ∈ body, startsWithL "diff --git ".data l = false ∧
        startsWithL "Binary files ".data l = false) →
      body.foldl diffLineStep ⟨F, some p, acc⟩ = ⟨F, some p, acc ++ hunksOf body⟩ := by
  induction body with
  | nil =>
    intro F p acc hp hok
    simp [hunksOf]
  | cons line t ih =>
    intro F p acc hp hok
    obtain ⟨h1, h2⟩ := hok line (List.mem_cons_self line t)
    have hok2 : ∀ l ∈ t, startsWithL "diff --git ".data l = false ∧
        startsWithL "Binary files ".data l = false :=
      fun l hl => hok l (List.mem_cons_of_mem _ hl)
    rw [List.foldl_cons, diffLineStep_plain _ _ h1 h2]
    have htr : jsTruthy (some p) = true := by
      simp [jsTruthy]
      exact hp
    by_cases hat : startsWithL "@@".data line = true
    · rw [if_pos (by rw [hat, htr]; rfl)]
      cases hs : scanHunk line with
      | some h =>
        show t.foldl diffLineStep ⟨F, some p, acc ++ [h]⟩ = _
        rw [ih F p (acc ++ [h]) hp hok2]
        simp [hunksOf, List.filterMap_cons, hat, hs]
      | none =>
        show t.foldl diffLineStep ⟨F, some p, acc⟩ = _
        rw [ih F p acc hp hok2]
        simp [hunksOf, List.filterMap_cons, hat, hs]
    · rw [Bool.not_eq_true] at hat
      rw [if_neg (by simp [hat])]
      rw [ih F p acc hp hok2]
      simp [hunksOf, List.filterMap_cons, hat]

theorem foldl_body_none (body : List (List Char)) :
    ∀ F, (∀ l ∈ body, startsWithL "diff --git ".data l = false) →
      body.foldl diffLineStep ⟨F, none, []⟩ = ⟨F, none, []⟩ := by
  induction body with
  | nil => intro F _; rfl
  | cons line t ih =>
    intro F hok
    have h1 := hok line (List.mem_cons_self line t)
    have hok2 : ∀ l ∈ t, startsWithL "diff --git ".data l = false :=
      fun l hl => hok l (List.mem_cons_of_mem _ hl)
    rw [List.foldl_cons]
    by_cases hb : startsWithL "Binary files ".data line = true
    · rw [diffLineStep_binary _ _ h1 hb]
      exact ih F hok2
    · rw [Bool.not_eq_true] at hb
      rw [diffLineStep_plain _ _ h1 hb]
      rw [if_neg (by simp [jsTruthy])]
      exact ih F hok2

theorem not_allWs_of_header (s : String) (H1 : List Char)
    (rest : List (List Char))
    (hsplit : splitOnChar '\n' s.data = H1 :: rest)
    (hH : startsWithL "diff --git ".data H1 = true) :
    s.data.all jsWs = false := by
  unfold startsWithL at hH
  cases hs : stripLit "diff --git ".data H1 with
  | none => rw [hs] at hH; simp at hH
  | some r =>
    have hl := stripLit_eq_some _ _ _ hs
    have hd : 'd' ∈ H1 := by
      rw [hl]
      exact List.mem_append_left _ (by decide)
    have hds : 'd' ∈ s.data := by
      have hj : s.data = joinChar '\n' (splitOnChar '\n' s.data) :=
        (joinChar_splitOnChar _ _).symm
      rw [hj, hsplit]
      exact mem_joinChar '\n' (H1 :: rest) H1 (List.mem_cons_self _ _) 'd' hd
    rw [Bool.eq_false_iff]
    intro hall
    have := List.all_eq_true.mp hall 'd' hds
    simp [jsWs] at this

/-- C6: the `parseDiff` mapping has entries only for sections with at least
one parsed hunk; a two-section diff with distinct destination paths yields
exactly the two entries keyed by those paths with their hunks in source
order; a section with no hunks is dropped; and a section whose body hits a
`Binary files` marker is dropped. -/
theorem c6_parse_diff_sections :
    (∀ (s p : String) (fd : FileDiff), mapGet (parseDiff s) p = some fd →
      fd.hunks ≠ [] ∧ fd.path = p)
    ∧ (∀ (s : String) (H1 H2 : List Char) (B1 B2 : List (List Char))
        (p1 p2 : String),
        splitOnChar '\n' s.data = H1 :: (B1 ++ H2 :: B2) →
        startsWithL "diff --git ".data H1 = true →
        startsWithL "diff --git ".data H2 = true →
        (scanDiffGit H1).map (fun cap => String.mk (normalizePathL cap)) = some p1 →
        (scanDiffGit H2).map (fun cap => String.mk (normalizePathL cap)) = some p2 →
        p1 ≠ "" → p2 ≠ "" → p1 ≠ p2 →
        bodyOk B1 = true → bodyOk B2 = true →
        hunksOf B1 ≠ [] → hunksOf B2 ≠ [] →
        parseDiff s = [(p1, ⟨p1, hunksOf B1⟩), (p2, ⟨p2, hunksOf B2⟩)])
    ∧ (∀ (s : String) (H1 : List Char) (B1 : List (List Char)) (p1 : String),
        splitOnChar '\n' s.data = H1 :: B1 →
        startsWithL "diff --git ".data H1 = true →
        (scanDiffGit H1).map (fun cap => String.mk (normalizePathL cap)) = some p1 →
        p1 ≠ "" → bodyOk B1 = true → hunksOf B1 = [] →
        parseDiff s = [])
    ∧ (∀ (s : String) (H1 bin : List Char) (B1a B1b : List (List Char))
        (p1 : String),
        splitOnChar '\n' s.data = H1 :: (B1a ++ bin :: B1b) →
        startsWithL "diff --git ".data H1 = true →
        (scanDiffGit H1).map (fun cap => String.mk (normalizePathL cap)) = some p1 →
        p1 ≠ "" → bodyOk B1a = true →
        startsWithL "Binary files ".data bin = true →
        (∀ l ∈ B1b, startsWithL "diff --git ".data l = false) →
        parseDiff s = []) := by
  refine ⟨?_, ?_, ?_, ?_⟩
  · intro s p fd h
    obtain ⟨g1, g2, -⟩ := parseDiff_entry_inv s p fd h
    exact ⟨g2, g1⟩
  · intro s H1 H2 B1 B2 p1 p2 hsplit hH1 hH2 hp1 hp2 hp1ne hp2ne hp12 hB1 hB2
      hne1 hne2
    unfold parseDiff
    rw [if_neg (by rw [not_allWs_of_header s H1 _ hsplit hH1]; simp)]
    simp only []
    rw [hsplit, List.foldl_cons, diffLineStep_header _ _ hH1, hp1,
      List.foldl_append,
      foldl_body_hunks B1 _ p1 [] hp1ne (bodyOk_spec B1 hB1),
      List.foldl_cons, diffLineStep_header _ _ hH2, hp2,
      flushFile_commit _ _ _ hp1ne (by simpa using hne1),
      foldl_body_hunks B2 _ p2 [] hp2ne (bodyOk_spec B2 hB2),
      flushFile_commit _ _ _ hp2ne (by simpa using hne2)]
    simp [flushFile, mapSet, hp12]
  · intro s H1 B1 p1 hsplit hH1 hp1 hp1ne hB1 hnil
    unfold parseDiff
    rw [if_neg (by rw [not_allWs_of_header s H1 _ hsplit hH1]; simp)]
    simp only []
    rw [hsplit, List.foldl_cons, diffLineStep_header _ _ hH1, hp1,
      foldl_body_hunks B1 _ p1 [] hp1ne (bodyOk_spec B1 hB1), hnil]
    simp [flushFile_nil, flushFile]
  · intro s H1 bin B1a B1b p1 hsplit hH1 hp1 hp1ne hB1a hbin hB1b
    unfold parseDiff
    rw [if_neg (by rw [not_allWs_of_header s H1 _ hsplit hH1]; simp)]
    simp only []
    rw [hsplit, List.foldl_cons, diffLineStep_header _ _ hH1, hp1,
      List.foldl_append,
      foldl_body_hunks B1a _ p1 [] hp1ne (bodyOk_spec B1a hB1a),
      List.foldl_cons, diffLineStep_binary _ _ (header_false_of_binary bin hbin) hbin,
      foldl_body_none B1b _ hB1b]
    simp [flushFile]

/-- C10: when the same non-empty destination path heads two hunk-bearing
sections, the result holds exactly one entry for that path, bound to the
later section's hunks. -/
theorem c10_duplicate_path_overwrite (s : String) (H1 H2 : List Char)
    (B1 B2 : List (List Char)) (p : String)
    (hsplit : splitOnChar '\n' s.data = H1 :: (B1 ++ H2 :: B2))
    (hH1 : startsWithL "diff --git ".data H1 = true)
    (hH2 : startsWithL "diff --git ".data H2 = true)
    (hp1 : (scanDiffGit H1).map (fun cap => String.mk (normalizePathL cap)) = some p)
    (hp2 : (scanDiffGit H2).map (fun cap => String.mk (normalizePathL cap)) = some p)
    (hpne : p ≠ "")
    (hB1 : bodyOk B1 = true) (hB2 : bodyOk B2 = true)
    (hne1 : hunksOf B1 ≠ []) (hne2 : hunksOf B2 ≠ []) :
    parseDiff s = [(p, ⟨p, hunksOf B2⟩)] := by
  unfold parseDiff
  rw [if_neg (by rw [not_allWs_of_header s H1 _ hsplit hH1]; simp)]
  simp only []
  rw [hsplit, List.foldl_cons, diffLineStep_header _ _ hH1, hp1,
    List.foldl_append,
    foldl_body_hunks B1 _ p [] hpne (bodyOk_spec B1 hB1),
    List.foldl_cons, diffLineStep_header _ _ hH2, hp2,
    flushFile_commit _ _ _ hpne (by simpa using hne1),
    foldl_body_hunks B2 _ p [] hpne (bodyOk_spec B2 hB2),
    flushFile_commit _ _ _ hpne (by simpa using hne2)]
  simp [flushFile, mapSet]

theorem c6_witness :
    ((⟨"src/a.ts", [⟨1, 1, 1, 2⟩]⟩ : FileDiff).hunks ≠ [] ∧
      (⟨"src/a.ts", [⟨1, 1, 1, 2⟩]⟩ : FileDiff).path = "src/a.ts") ∧
    parseDiff "diff --git a/src/a.ts b/src/a.ts\n@@ -1,1 +1,2 @@\n+x\ndiff --git a/src/b.ts b/src/b.ts\n@@ -10,2 +10,1 @@\n-y\n" =
      [("src/a.ts", ⟨"src/a.ts", [⟨1, 1, 1, 2⟩]⟩),
       ("src/b.ts", ⟨"src/b.ts", [⟨10, 2, 10, 1⟩]⟩)] ∧
    parseDiff "diff --git a/src/empty.ts b/src/empty.ts\nindex abc..def 100644\n" = [] ∧
    parseDiff "diff --git a/image.png b/image.png\nBinary files a/image.png and b/image.png differ\n" = [] := by
  refine ⟨?_, ?_, ?_, ?_⟩
  · exact c6_parse_diff_sections.1
      "diff --git a/src/a.ts b/src/a.ts\n@@ -1,1 +1,2 @@\n+x\ndiff --git a/src/b.ts b/src/b.ts\n@@ -10,2 +10,1 @@\n-y\n"
      "src/a.ts" ⟨"src/a.ts", [⟨1, 1, 1, 2⟩]⟩ (by decide)
  · exact (c6_parse_diff_sections.2.1
      "diff --git a/src/a.ts b/src/a.ts\n@@ -1,1 +1,2 @@\n+x\ndiff --git a/src/b.ts b/src/b.ts\n@@ -10,2 +10,1 @@\n-y\n"
      ("diff --git a/src/a.ts b/src/a.ts".data)
      ("diff --git a/src/b.ts b/src/b.ts".data)
      ["@@ -1,1 +1,2 @@".data, "+x".data]
      ["@@ -10,2 +10,1 @@".data, "-y".data, "".data]
      "src/a.ts" "src/b.ts"
      (by decide) (by decide) (by decide) (by decide) (by decide) (by decide)
      (by decide) (by decide) (by decide) (by decide) (by decide)
      (by decide)).trans (by decide)
  · exact c6_parse_diff_sections.2.2.1
      "diff --git a/src/empty.ts b/src/empty.ts\nindex abc..def 100644\n"
      ("diff --git a/src/empty.ts b/src/empty.ts".data)
      ["index abc..def 100644".data, "".data]
      "src/empty.ts"
      (by decide) (by decide) (by decide) (by decide) (by decide) (by decide)
  · exact c6_parse_diff_sections.2.2.2
      "diff --git a/image.png b/image.png\nBinary files a/image.png and b/image.png differ\n"
      ("diff --git a/image.png b/image.png".data)
      ("Binary files a/image.png and b/image.png differ".data)
      [] ["".data]
      "image.png"
      (by decide) (by decide) (by decide) (by decide) (by decide) (by decide)
      (by decide)

theorem c10_witness :
    parseDiff "diff --git a/same.ts b/same.ts\n@@ -1,1 +1,2 @@\ndiff --git a/same.ts b/same.ts\n@@ -5,1 +5,3 @@\n" =
      [("same.ts", ⟨"same.ts", [⟨5, 1, 5, 3⟩]⟩)] :=
  (c10_duplicate_path_overwrite
    "diff --git a/same.ts b/same.ts\n@@ -1,1 +1,2 @@\ndiff --git a/same.ts b/same.ts\n@@ -5,1 +5,3 @@\n"
    ("diff --git a/same.ts b/same.ts".data)
    ("diff --git a/same.ts b/same.ts".data)
    ["@@ -1,1 +1,2 @@".data]
    ["@@ -5,1 +5,3 @@".data, "".data]
    "same.ts"
    (by decide) (by decide) (by decide) (by decide) (by decide) (by decide)
    (by decide) (by decide) (by decide) (by decide)).trans (by decide)

end Agentmap
